import Mathlib

/-!
Shallow embedding of the character-level tweet generator notebook
(src/notebooks/workshop-5/tweet_generator.ipynb): the TweetDataset
windowing and vocabulary code, the GRU model step, the training-loop
loss reporting, and the generate sampling loop.

Torch's real arithmetic is embedded over the rationals; the
exponential inside softmax / sigmoid / tanh is replaced by a strictly
positive rational surrogate expQ.  The verified statements depend only
on shapes, positivity and normalisation, which the surrogate shares
with the floating-point functions; the spec itself states that
bit-for-bit numeric agreement with the framework is not required.
-/

set_option maxHeartbeats 1000000

/-- A corpus is the ordered list of text samples (one per tweet),
each a list of characters. -/
abbrev Corpus := List (List Char)

/-! ### Sequence Windower: TweetDataset._create_sequences -/

/-- Right-padding of one slice, from the body of _create_sequences:
if len(seq) < seq_len+1 then seq += ' ' * (seq_len+1 - len(seq)). -/
def pad_seq (seq_len : Nat) (seq : List Char) : List Char :=
  if seq.length < seq_len + 1 then
    seq ++ List.replicate (seq_len + 1 - seq.length) ' '
  else seq

/-- Recursion worker for the walk over one tweet.  The fuel argument
only bounds the number of strides so that the recursion is structural
(each stride consumes at least one character, so fuel equal to the
tweet length never runs out; see chunk_pad_cons). -/
def chunk_pad_go (seq_len : Nat) : Nat → List Char → List (List Char)
  | _, [] => []
  | 0, _ :: _ => []
  | fuel + 1, c :: t =>
    pad_seq seq_len ((c :: t).take (seq_len + 1)) ::
      chunk_pad_go seq_len fuel ((c :: t).drop (seq_len + 1))

/-- The walk over one tweet, from _create_sequences:
for i in range(0, len(tweet), seq_len+1): seq = tweet[i:i+seq_len+1],
padded.  The Python range over an empty tweet is empty, so an empty
tweet contributes no slice at all. -/
def chunk_pad (seq_len : Nat) (t : List Char) : List (List Char) :=
  chunk_pad_go seq_len t.length t

/-- The outer loop of _create_sequences: the padded slices of every
tweet of the corpus, concatenated in corpus order. -/
def all_chunks (seq_len : Nat) : Corpus → List (List Char)
  | [] => []
  | t :: ts => chunk_pad seq_len t ++ all_chunks seq_len ts

/-- The input/target pairs of _create_sequences: for each collected
slice seq the pair (seq[:-1], seq[1:]), zipped in order. -/
def seq_pairs (seq_len : Nat) (corpus : Corpus) :
    List (List Char × List Char) :=
  let seqs := all_chunks seq_len corpus
  (seqs.map (fun s => s.dropLast)).zip (seqs.map (fun s => s.drop 1))

/-- Failure conditions of the dataset construction code.  The only
exception the Python constructor itself can raise (file reading aside,
which is outside the embedded core) is the assert in _create_sequences. -/
inductive DataError where
  | assertionError
deriving Repr, DecidableEq

/-- The whole of _create_sequences, including its
assert(len(seq) == seq_len+1): the pairs are produced only if every
collected slice has length exactly seq_len+1. -/
def create_sequences (seq_len : Nat) (corpus : Corpus) :
    Except DataError (List (List Char × List Char)) :=
  if (all_chunks seq_len corpus).all (fun s => s.length == seq_len + 1) then
    .ok (seq_pairs seq_len corpus)
  else .error .assertionError

/-! ### Vocabulary Builder: TweetDataset._get_unique_chars -/

/-- The nested loop of _get_unique_chars: every character of every
tweet, in order of traversal. -/
def all_text : Corpus → List Char
  | [] => []
  | t :: ts => t ++ all_text ts

/-- TweetDataset._get_unique_chars: collect the distinct characters of
the corpus (the Python set) and sort them ascending (chars.sort()).
Python sorts characters by code point, which is exactly the Char order
used here. -/
def get_unique_chars (corpus : Corpus) : List Char :=
  List.insertionSort (· ≤ ·) (all_text corpus).dedup

/-- Lookup of a character's index, modelling the dict
char2int = \x7b c: i for i, c in int2char.items() \x7d built over the
sorted, duplicate-free character list: the dict lookup returns the
index of the (unique) occurrence of c, and raises KeyError (None here)
when c is absent. -/
def lookup_idx (c : Char) : List Char → Option Nat
  | [] => none
  | x :: xs => if x = c then some 0 else (lookup_idx c xs).map (· + 1)

/-- The fields of TweetDataset that the embedded code reads:
seq_len, the sorted character list (chars), vocab_size = len(chars),
and the list of (input, target) window pairs. -/
structure TweetDataset where
  seq_len : Nat
  chars : List Char
  vocab_size : Nat
  sequences : List (List Char × List Char)
deriving Repr, DecidableEq

/-- The dict self.int2char = dict(enumerate(self.chars)). -/
def TweetDataset.int2char (d : TweetDataset) (i : Nat) : Option Char :=
  d.chars.get? i

/-- The dict self.char2int built from int2char. -/
def TweetDataset.char2int (d : TweetDataset) (c : Char) : Option Nat :=
  lookup_idx c d.chars

/-- TweetDataset._encode_sequence: [self.char2int[c] for c in seq].
The comprehension raises KeyError (None here) as soon as some
character is not a key of char2int. -/
def TweetDataset.encode_sequence (d : TweetDataset) :
    List Char → Option (List Nat)
  | [] => some []
  | c :: cs =>
    match d.char2int c, d.encode_sequence cs with
    | some i, some rest => some (i :: rest)
    | _, _ => none

/-- One-hot encoding of a single integer, from _one_hot_sequence:
vec = [0]*vocab_size; vec[s] = 1.  The Python item assignment raises
IndexError (None here) when s is out of range. -/
def one_hot (s : Nat) (vocab_size : Nat) : Option (List ℚ) :=
  if s < vocab_size then
    some ((List.replicate vocab_size (0 : ℚ)).set s 1)
  else none

/-- TweetDataset._one_hot_sequence: one-hot encode every integer of
the sequence. -/
def one_hot_sequence : List Nat → Nat → Option (List (List ℚ))
  | [], _ => some []
  | s :: ss, vocab_size =>
    match one_hot s vocab_size, one_hot_sequence ss vocab_size with
    | some vec, some rest => some (vec :: rest)
    | _, _ => none

/-- Decoding a sequence of indices, the per-index int2char lookup that
generate performs, lifted pointwise to sequences (the decode of the
spec's round-trip property). -/
def TweetDataset.decode_sequence (d : TweetDataset) :
    List Nat → Option (List Char)
  | [] => some []
  | i :: is =>
    match d.int2char i, d.decode_sequence is with
    | some c, some rest => some (c :: rest)
    | _, _ => none

/-- TweetDataset.__init__ on an already-loaded corpus: build the
sorted character list, vocab_size = len(chars), the two dicts (derived
fields here), and the window pairs via _create_sequences.  The
constructor performs no validation beyond the assert inside
_create_sequences; in particular there is no check that the vocabulary
is non-empty. -/
def datasetInit (corpus : Corpus) (seq_len : Nat) :
    Except DataError TweetDataset :=
  let chars := get_unique_chars corpus
  match create_sequences seq_len corpus with
  | .error e => .error e
  | .ok seqs =>
    .ok { seq_len := seq_len, chars := chars,
          vocab_size := chars.length, sequences := seqs }

/-! ### Trainer: the per-epoch loss reporting of train -/

/-- The notebook's global BATCH_SIZE hyperparameter. -/
def BATCH_SIZE : Nat := 32

/-- Failure conditions of the epoch loop of train. -/
inductive TrainError where
  | attributeError
deriving Repr, DecidableEq

/-- One epoch of train, with the per-batch losses abstracted as the
list of values produced by loss_fn: loss_avg starts as the int 0, each
batch adds its loss, and the epoch reports loss_avg.item() / BATCH_SIZE.
When no batch ran, loss_avg is still the Python int 0, whose .item()
raises AttributeError (an int has no item method); otherwise it is a
tensor and the division is by the constant BATCH_SIZE, not by the
number of batches. -/
def train_epoch_report (losses : List ℚ) : Except TrainError ℚ :=
  if losses.isEmpty then .error .attributeError
  else .ok ((losses.foldl (· + ·) 0) / (BATCH_SIZE : ℚ))

/-! ### Recurrent Model: the GRU module -/

/-- Strictly positive rational surrogate for the exponential: it is
positive everywhere and strictly increasing, which is all the verified
statements use of exp. -/
def expQ (x : ℚ) : ℚ :=
  if 0 ≤ x then x + 1 else 1 / (1 - x)

/-- Logistic sigmoid over the surrogate exponential. -/
def sigmoidQ (x : ℚ) : ℚ := 1 / (1 + expQ (-x))

/-- Hyperbolic tangent over the surrogate exponential. -/
def tanhQ (x : ℚ) : ℚ := (expQ x - expQ (-x)) / (expQ x + expQ (-x))

/-- Dot product of two rational vectors. -/
def dot (a b : List ℚ) : ℚ :=
  (a.zipWith (· * ·) b).foldl (· + ·) 0

/-- Matrix-vector product: one dot product per matrix row. -/
def matVec (m : List (List ℚ)) (v : List ℚ) : List ℚ :=
  m.map (fun row => dot row v)

/-- Elementwise vector sum. -/
def vecAdd (a b : List ℚ) : List ℚ := a.zipWith (· + ·) b

/-- Elementwise vector product. -/
def vecMul (a b : List ℚ) : List ℚ := a.zipWith (· * ·) b

/-- Parameters of one GRU layer, as documented for torch.nn.GRU:
input-to-hidden and hidden-to-hidden weights and biases for the
reset gate r, the update gate z and the candidate n. -/
structure GRUCell where
  W_ir : List (List ℚ)
  W_iz : List (List ℚ)
  W_in : List (List ℚ)
  W_hr : List (List ℚ)
  W_hz : List (List ℚ)
  W_hn : List (List ℚ)
  b_ir : List ℚ
  b_iz : List ℚ
  b_in : List ℚ
  b_hr : List ℚ
  b_hz : List ℚ
  b_hn : List ℚ
deriving Repr, DecidableEq

/-- One time step of one GRU layer, the documented recurrence of
torch.nn.GRU: r and z by sigmoid gates, candidate n by tanh with the
reset gate applied to the hidden contribution, and the new hidden
state the per-dimension convex combination (1 - z) * n + z * h. -/
def cellStep (c : GRUCell) (x h : List ℚ) : List ℚ :=
  let r := (vecAdd (vecAdd (matVec c.W_ir x) c.b_ir)
                   (vecAdd (matVec c.W_hr h) c.b_hr)).map sigmoidQ
  let z := (vecAdd (vecAdd (matVec c.W_iz x) c.b_iz)
                   (vecAdd (matVec c.W_hz h) c.b_hz)).map sigmoidQ
  let n := (vecAdd (vecAdd (matVec c.W_in x) c.b_in)
                   (vecMul r (vecAdd (matVec c.W_hn h) c.b_hn))).map tanhQ
  vecAdd (vecMul (z.map (fun v => 1 - v)) n) (vecMul z h)

/-- The GRU module of the notebook: a stack of n_layers GRU cells
followed by the fully connected projection fc = nn.Linear(hidden_size,
output_size), kept as its weight rows fcW and bias fcB. -/
structure GRU where
  input_size : Nat
  hidden_size : Nat
  output_size : Nat
  n_layers : Nat
  cells : List GRUCell
  fcW : List (List ℚ)
  fcB : List ℚ
deriving Repr, DecidableEq

/-- One time step through the layer stack for a single (batch-1)
input: each layer consumes the previous layer's output and its own
hidden slice; the step's output is the top layer's new hidden state,
as torch.nn.GRU returns for the last time step. -/
def stackStep : List GRUCell → List (List ℚ) → List ℚ →
    List ℚ × List (List ℚ)
  | [], _, x => (x, [])
  | c :: cs, hs, x =>
    let h1 := cellStep c x (hs.headD [])
    let rest := stackStep cs hs.tail h1
    (rest.1, h1 :: rest.2)

/-- GRU.forward for a single time step with batch size one: run the
recurrent stack, then project the (flattened) recurrent output through
the linear layer, returning (logits, new hidden). -/
def GRU.forward (m : GRU) (x : List ℚ) (hidden : List (List ℚ)) :
    List ℚ × List (List ℚ) :=
  let g := stackStep m.cells hidden x
  (vecAdd (matVec m.fcW g.1) m.fcB, g.2)

/-- GRU.init_hidden: torch.zeros(n_layers, batch_size, hidden_size),
for the batch size 1 used by generate (the batch dimension of size one
is dropped in this embedding). -/
def GRU.init_hidden (m : GRU) (_batch_size : Nat) : List (List ℚ) :=
  List.replicate m.n_layers (List.replicate m.hidden_size (0 : ℚ))

/-- The shape guarantee that nn.Linear(hidden_size, output_size) gives
the projection by construction: output_size weight rows and
output_size bias entries.  This is the only shape fact the verified
statements need about a trained model. -/
def GRU.OutputSized (m : GRU) : Prop :=
  m.fcW.length = m.output_size ∧ m.fcB.length = m.output_size

instance (m : GRU) : Decidable m.OutputSized := by
  unfold GRU.OutputSized
  infer_instance

/-- F.softmax over the surrogate exponential: exponentiate each logit
and normalise by the total. -/
def softmax (l : List ℚ) : List ℚ :=
  let es := l.map expQ
  es.map (fun e => e / es.foldl (· + ·) 0)

/-- torch.multinomial(dist, 1)[0] with the randomness made explicit:
u is the random draw and the returned index is the first whose
cumulative probability exceeds u, clamped to the last index.  For a
non-empty distribution the result is always a valid index, as
torch.multinomial guarantees. -/
def multinomial : List ℚ → ℚ → Nat
  | [], _ => 0
  | [_], _ => 0
  | p :: q :: rest, u =>
    if u < p then 0 else multinomial (q :: rest) (u - p) + 1

/-! ### Generator: the generate function -/

/-- Failure conditions of generate, one per raising site of the
Python code: KeyError in the char2int lookup of _encode_sequence
(the UnknownCharacter condition), KeyError in the int2char lookup of
the sampling loop, IndexError when indexing an empty tensor or list,
and IndexError in the one-hot item assignment. -/
inductive GenError where
  | unknownChar
  | int2charKey
  | indexError
  | oneHotIndex
deriving Repr, DecidableEq

/-- The sampling loop of generate: for i in range(length), run one
model step on the current input, softmax the logits, sample one index
(rng i is the random draw of iteration i), decode it through int2char,
append the character, and re-encode and one-hot the character (then
take element [0]) as the next step's input. -/
def sampleLoop (m : GRU) (d : TweetDataset) (rng : Nat → ℚ) :
    Nat → Nat → List ℚ → List (List ℚ) → Except GenError (List Char)
  | 0, _, _, _ => .ok []
  | n + 1, i, inpt, hidden =>
    let step := m.forward inpt hidden
    let output_dist := softmax step.1
    let top := multinomial output_dist (rng i)
    match d.int2char top with
    | none => .error .int2charKey
    | some char =>
      match d.encode_sequence [char] with
      | none => .error .unknownChar
      | some e =>
        match one_hot_sequence e d.vocab_size with
        | none => .error .oneHotIndex
        | some vs =>
          match vs.head? with
          | none => .error .indexError
          | some nxt =>
            match sampleLoop m d rng n (i + 1) nxt step.2 with
            | .error err => .error err
            | .ok rest => .ok (char :: rest)

/-- The generate function of the notebook: encode and one-hot the seed
(KeyError on an unknown character, before anything else), initialise
the hidden state with batch size one, feed every seed one-hot through
the model discarding the logits, take start[-1] (IndexError on an
empty seed) as the first sampling input, then run the sampling loop
length times and return only the sampled characters. -/
def generate (m : GRU) (d : TweetDataset) (start0 : List Char)
    (length : Nat) (rng : Nat → ℚ) : Except GenError (List Char) :=
  match d.encode_sequence start0 with
  | none => .error .unknownChar
  | some enc =>
    match one_hot_sequence enc d.vocab_size with
    | none => .error .oneHotIndex
    | some start =>
      let hidden0 := m.init_hidden 1
      let hidden := start.foldl (fun h s => (m.forward s h).2) hidden0
      match start.getLast? with
      | none => .error .indexError
      | some inpt => sampleLoop m d rng length 0 inpt hidden

/-! ### Spec-side Generator definitions (for the refinement claim) -/

/-- Follows the spec's words for priming: for every character of the
seed (already one-hot encoded), feed it through the model one step at
a time, discarding the logits and retaining the updated hidden
state. -/
def specPrime (m : GRU) : List (List ℚ) → List (List ℚ) → List (List ℚ)
  | [], h => h
  | x :: xs, h => specPrime m xs (m.forward x h).2

/-- Follows the spec's words for sampling: repeat N times: run one
model step to get (logits, hidden); softmax the logits; sample one
index from that distribution; append the decoded character; re-encode
the sampled character (directly as the one-hot of its vocabulary
index) as the next step's input. -/
def specSample (m : GRU) (d : TweetDataset) (rng : Nat → ℚ) :
    Nat → Nat → List ℚ → List (List ℚ) → Except GenError (List Char)
  | 0, _, _, _ => .ok []
  | n + 1, i, inpt, hidden =>
    let step := m.forward inpt hidden
    let top := multinomial (softmax step.1) (rng i)
    match d.int2char top with
    | none => .error .int2charKey
    | some char =>
      match d.char2int char with
      | none => .error .unknownChar
      | some j =>
        if j < d.vocab_size then
          match specSample m d rng n (i + 1)
              ((List.replicate d.vocab_size (0 : ℚ)).set j 1) step.2 with
          | .error err => .error err
          | .ok rest => .ok (char :: rest)
        else .error .oneHotIndex

/-! ### Concrete fixtures used by witnesses and counterexamples -/

/-- A two-character corpus: the single tweet "ab". -/
def corpusAB : Corpus := [[ 'a', 'b']]

/-- The dataset the notebook constructor builds from corpusAB with
seq_len 1. -/
def dAB : TweetDataset :=
  { seq_len := 1, chars := [ 'a', 'b'], vocab_size := 2,
    sequences := [([ 'a'], [ 'b'])] }

/-- A well-formed zero-weight GRU with input and output size 2 (the
vocabulary size of dAB), hidden size 1, one layer. -/
def mAB : GRU :=
  { input_size := 2, hidden_size := 1, output_size := 2, n_layers := 1,
    cells := [{ W_ir := [[0, 0]], W_iz := [[0, 0]], W_in := [[0, 0]],
                W_hr := [[0]], W_hz := [[0]], W_hn := [[0]],
                b_ir := [0], b_iz := [0], b_in := [0],
                b_hr := [0], b_hz := [0], b_hn := [0] }],
    fcW := [[0], [0]], fcB := [0, 0] }

/-- A fixed randomness source: every draw is 0. -/
def rngZero : Nat → ℚ := fun _ => 0

/-! ### Helper lemmas: the windower -/

/-- The fuel of chunk_pad_go is irrelevant as long as it dominates the
length of the remaining text. -/
theorem chunk_pad_go_fuel (seq_len : Nat) :
    ∀ f1 f2 t, t.length ≤ f1 → t.length ≤ f2 →
      chunk_pad_go seq_len f1 t = chunk_pad_go seq_len f2 t := by
  intro f1
  induction f1 with
  | zero =>
    intro f2 t h1 _
    cases t with
    | nil => cases f2 <;> rfl
    | cons c t => simp at h1
  | succ g1 ih =>
    intro f2 t h1 h2
    cases t with
    | nil => cases f2 <;> rfl
    | cons c t =>
      cases f2 with
      | zero => simp at h2
      | succ g2 =>
        simp only [chunk_pad_go]
        have hd : ((c :: t).drop (seq_len + 1)).length ≤ g1 := by
          simp only [List.length_drop, List.length_cons]
          simp only [List.length_cons] at h1
          omega
        have hd2 : ((c :: t).drop (seq_len + 1)).length ≤ g2 := by
          simp only [List.length_drop, List.length_cons]
          simp only [List.length_cons] at h2
          omega
        rw [ih g2 _ hd hd2]

/-- The defining recurrence of the walk: one padded slice of seq_len+1
characters, then the walk over the rest. -/
theorem chunk_pad_cons (seq_len : Nat) (c : Char) (t : List Char) :
    chunk_pad seq_len (c :: t) =
      pad_seq seq_len ((c :: t).take (seq_len + 1)) ::
        chunk_pad seq_len ((c :: t).drop (seq_len + 1)) := by
  show chunk_pad_go seq_len (t.length + 1) (c :: t) = _
  simp only [chunk_pad_go]
  rw [chunk_pad, chunk_pad_go_fuel seq_len t.length
    ((c :: t).drop (seq_len + 1)).length ((c :: t).drop (seq_len + 1)) ?_ le_rfl]
  simp only [List.length_drop, List.length_cons]
  omega

/-- Padding a slice no longer than seq_len+1 yields exactly
seq_len+1 characters. -/
theorem pad_seq_length (seq_len : Nat) (s : List Char)
    (h : s.length ≤ seq_len + 1) : (pad_seq seq_len s).length = seq_len + 1 := by
  rw [pad_seq]
  split
  · simp only [List.length_append, List.length_replicate]
    omega
  · omega

/-- Every slice the walk emits has length exactly seq_len+1 (this is
the assert of _create_sequences). -/
theorem mem_chunk_pad_length (seq_len : Nat) (t : List Char)
    (s : List Char) (hs : s ∈ chunk_pad seq_len t) :
    s.length = seq_len + 1 := by
  rw [chunk_pad] at hs
  generalize hf : t.length = fuel at hs
  have hle : t.length ≤ fuel := hf.le
  clear hf
  induction fuel generalizing t with
  | zero =>
    cases t with
    | nil => simp [chunk_pad_go] at hs
    | cons c t => simp at hle
  | succ g ih =>
    cases t with
    | nil => simp [chunk_pad_go] at hs
    | cons c t =>
      simp only [chunk_pad_go, List.mem_cons] at hs
      rcases hs with rfl | hs
      · refine pad_seq_length _ _ ?_
        simp [List.length_take]
      · refine ih _ hs ?_
        simp only [List.length_drop, List.length_cons]
        simp only [List.length_cons] at hle
        omega

/-- Membership in the corpus-wide slice list comes from some tweet. -/
theorem mem_all_chunks (seq_len : Nat) (corpus : Corpus) (s : List Char)
    (hs : s ∈ all_chunks seq_len corpus) :
    ∃ t ∈ corpus, s ∈ chunk_pad seq_len t := by
  induction corpus with
  | nil => simp [all_chunks] at hs
  | cons t ts ih =>
    simp only [all_chunks, List.mem_append] at hs
    rcases hs with hs | hs
    · exact ⟨t, List.mem_cons_self _ _, hs⟩
    · obtain ⟨t2, ht2, hst2⟩ := ih hs
      exact ⟨t2, List.mem_cons_of_mem _ ht2, hst2⟩

/-- Every emitted pair is the (seq[:-1], seq[1:]) split of some
collected slice. -/
theorem mem_seq_pairs (seq_len : Nat) (corpus : Corpus)
    (p : List Char × List Char) (hp : p ∈ seq_pairs seq_len corpus) :
    ∃ s ∈ all_chunks seq_len corpus, p = (s.dropLast, s.drop 1) := by
  rw [seq_pairs, List.zip_map'] at hp
  obtain ⟨s, hs, hps⟩ := List.mem_map.mp hp
  exact ⟨s, hs, hps.symm⟩

/-- The assert of _create_sequences never fires: the checked pairs are
always returned. -/
theorem create_sequences_ok (seq_len : Nat) (corpus : Corpus) :
    create_sequences seq_len corpus = .ok (seq_pairs seq_len corpus) := by
  rw [create_sequences, if_pos]
  rw [List.all_eq_true]
  intro s hs
  obtain ⟨t, _, hst⟩ := mem_all_chunks seq_len corpus s hs
  simpa using mem_chunk_pad_length seq_len t s hst

/-! ### Helper lemmas: vocabulary and encoding -/

/-- Characters of all_text are exactly the characters of the corpus. -/
theorem mem_all_text (corpus : Corpus) (c : Char) :
    c ∈ all_text corpus ↔ ∃ t ∈ corpus, c ∈ t := by
  induction corpus with
  | nil => simp [all_text]
  | cons t ts ih => simp [all_text, ih]

/-- The sorted character list is duplicate-free. -/
theorem get_unique_chars_nodup (corpus : Corpus) :
    (get_unique_chars corpus).Nodup := by
  rw [get_unique_chars]
  exact (List.perm_insertionSort _ _).nodup_iff.mpr (List.nodup_dedup _)

/-- The sorted character list is sorted ascending. -/
theorem get_unique_chars_sorted (corpus : Corpus) :
    List.Sorted (· ≤ ·) (get_unique_chars corpus) :=
  List.sorted_insertionSort _ _

/-- The sorted character list holds exactly the characters occurring
in the corpus. -/
theorem mem_get_unique_chars (corpus : Corpus) (c : Char) :
    c ∈ get_unique_chars corpus ↔ ∃ t ∈ corpus, c ∈ t := by
  rw [get_unique_chars, (List.perm_insertionSort _ _).mem_iff,
    List.mem_dedup, mem_all_text]

/-- A present character's index lookup succeeds and indexes back to
the character. -/
theorem lookup_idx_of_mem (c : Char) (l : List Char) (h : c ∈ l) :
    ∃ i, lookup_idx c l = some i ∧ l.get? i = some c := by
  induction l with
  | nil => simp at h
  | cons x xs ih =>
    by_cases hx : x = c
    · exact ⟨0, by simp [lookup_idx, hx], by simp [hx]⟩
    · have hc : c ∈ xs := by
        rcases List.mem_cons.mp h with rfl | hc
        · exact absurd rfl hx
        · exact hc
      obtain ⟨i, hi, hg⟩ := ih hc
      exact ⟨i + 1, by simp [lookup_idx, hx, hi], by simpa using hg⟩

/-- An absent character's index lookup fails (the KeyError case). -/
theorem lookup_idx_of_not_mem (c : Char) (l : List Char) (h : c ∉ l) :
    lookup_idx c l = none := by
  induction l with
  | nil => rfl
  | cons x xs ih =>
    simp only [List.mem_cons, not_or] at h
    rw [lookup_idx, if_neg (fun hh => h.1 hh.symm), ih h.2]
    rfl

/-- On a duplicate-free list, looking up the character stored at
position i returns i: the two dicts are mutually inverse. -/
theorem lookup_idx_get (l : List Char) (hl : l.Nodup) (i : Nat)
    (h : i < l.length) : lookup_idx (l.get ⟨i, h⟩) l = some i := by
  induction l generalizing i with
  | nil => simp at h
  | cons x xs ih =>
    cases i with
    | zero => simp [lookup_idx]
    | succ j =>
      have hx : x ∉ xs := (List.nodup_cons.mp hl).1
      have hj : j < xs.length := by
        simpa using h
      have hget : (x :: xs).get ⟨j + 1, h⟩ = xs.get ⟨j, hj⟩ := rfl
      have hne : ¬ x = (x :: xs).get ⟨j + 1, h⟩ := by
        rw [hget]
        intro hEq
        exact hx (hEq ▸ List.get_mem xs j hj)
      rw [lookup_idx, if_neg hne, hget, ih (List.nodup_cons.mp hl).2 j hj]
      rfl

/-- Encoding a string of vocabulary characters succeeds, produces one
in-range index per character, and decodes back to the string. -/
theorem encode_sequence_spec (d : TweetDataset) (s : List Char)
    (h : ∀ c ∈ s, c ∈ d.chars) :
    ∃ e, d.encode_sequence s = some e ∧ e.length = s.length ∧
      (∀ j ∈ e, j < d.chars.length) ∧ d.decode_sequence e = some s := by
  induction s with
  | nil => exact ⟨[], rfl, rfl, by simp, rfl⟩
  | cons c cs ih =>
    obtain ⟨e, he, hlen, hbound, hdec⟩ :=
      ih (fun x hx => h x (List.mem_cons_of_mem _ hx))
    obtain ⟨i, hi, hg⟩ := lookup_idx_of_mem c d.chars (h c (List.mem_cons_self _ _))
    refine ⟨i :: e, ?_, by simp [hlen], ?_, ?_⟩
    · rw [TweetDataset.encode_sequence, TweetDataset.char2int, hi, he]
    · intro j hj
      rcases List.mem_cons.mp hj with rfl | hj
      · obtain ⟨hb, _⟩ := List.get?_eq_some.mp hg
        exact hb
      · exact hbound j hj
    · rw [TweetDataset.decode_sequence, TweetDataset.int2char, hg, hdec]

/-- Encoding any sequence holding a character outside the vocabulary
fails (KeyError), never silently substituting. -/
theorem encode_sequence_none (d : TweetDataset) (s : List Char) (c : Char)
    (hc : c ∈ s) (hnot : c ∉ d.chars) : d.encode_sequence s = none := by
  induction s with
  | nil => simp at hc
  | cons x xs ih =>
    rcases List.mem_cons.mp hc with rfl | hx
    · rw [TweetDataset.encode_sequence, TweetDataset.char2int,
        lookup_idx_of_not_mem c d.chars hnot]
    · rw [TweetDataset.encode_sequence, ih hx]
      cases d.char2int x <;> rfl

/-- One-hot encoding a list of in-range indices succeeds, one vector
per index. -/
theorem one_hot_sequence_some (e : List Nat) (v : Nat)
    (h : ∀ j ∈ e, j < v) :
    ∃ os, one_hot_sequence e v = some os ∧ os.length = e.length := by
  induction e with
  | nil => exact ⟨[], rfl, rfl⟩
  | cons j js ih =>
    obtain ⟨os, hos, hlen⟩ := ih (fun x hx => h x (List.mem_cons_of_mem _ hx))
    refine ⟨(List.replicate v (0 : ℚ)).set j 1 :: os, ?_, by simp [hlen]⟩
    rw [one_hot_sequence, one_hot, if_pos (h j (List.mem_cons_self _ _)), hos]

/-! ### Helper lemmas: model step and sampling -/

/-- Softmax keeps the length of the logit vector. -/
theorem softmax_length (l : List ℚ) : (softmax l).length = l.length := by
  simp [softmax]

/-- The logits of one forward step have exactly output_size entries:
the projection has output_size rows and an output_size bias. -/
theorem forward_fst_length (m : GRU) (x : List ℚ) (h : List (List ℚ))
    (hm : m.OutputSized) : ((m.forward x h).1).length = m.output_size := by
  obtain ⟨hw, hb⟩ := hm
  simp [GRU.forward, vecAdd, matVec, List.length_zipWith, hw, hb]

/-- Sampling from a non-empty distribution always returns a valid
index of that distribution. -/
theorem multinomial_lt (dist : List ℚ) (u : ℚ) (h : dist ≠ []) :
    multinomial dist u < dist.length := by
  induction dist generalizing u with
  | nil => exact absurd rfl h
  | cons p rest ih =>
    cases rest with
    | nil => simp [multinomial]
    | cons q rest2 =>
      rw [multinomial]
      split
      · simp
      · have hlt := ih (u - p) (by simp)
        simp only [List.length_cons] at hlt ⊢
        omega

/-- The sampling loop of generate never fails when the model's output
size matches the vocabulary size and the vocabulary is non-empty, and
it returns exactly n characters, all from the vocabulary. -/
theorem sampleLoop_ok (m : GRU) (d : TweetDataset) (rng : Nat → ℚ)
    (hm : m.OutputSized) (ho : m.output_size = d.vocab_size)
    (hv : d.vocab_size = d.chars.length) (hpos : 0 < d.vocab_size) :
    ∀ n i inpt hidden, ∃ res,
      sampleLoop m d rng n i inpt hidden = .ok res ∧
        res.length = n ∧ ∀ c ∈ res, c ∈ d.chars := by
  intro n
  induction n with
  | zero => exact fun i inpt hidden => ⟨[], rfl, rfl, by simp⟩
  | succ n ih =>
    intro i inpt hidden
    have hlen : (softmax (m.forward inpt hidden).1).length = d.chars.length := by
      rw [softmax_length, forward_fst_length m _ _ hm, ho, hv]
    have hne : softmax (m.forward inpt hidden).1 ≠ [] := by
      intro hnil
      rw [hnil] at hlen
      rw [hv] at hpos
      simp at hlen
      omega
    have htop : multinomial (softmax (m.forward inpt hidden).1) (rng i) <
        d.chars.length := by
      rw [← hlen]
      exact multinomial_lt _ _ hne
    have hchar : d.int2char (multinomial (softmax (m.forward inpt hidden).1)
        (rng i)) = some (d.chars.get ⟨_, htop⟩) :=
      List.get?_eq_get htop
    have hmem : d.chars.get ⟨_, htop⟩ ∈ d.chars := List.get_mem _ _ _
    obtain ⟨j, hj, hgj⟩ := lookup_idx_of_mem _ d.chars hmem
    have hjlt : j < d.vocab_size := by
      rw [hv]
      obtain ⟨hb, _⟩ := List.get?_eq_some.mp hgj
      exact hb
    have henc : d.encode_sequence [d.chars.get ⟨_, htop⟩] = some [j] := by
      rw [TweetDataset.encode_sequence, TweetDataset.char2int, hj,
        TweetDataset.encode_sequence]
    have hoh : one_hot_sequence [j] d.vocab_size =
        some [(List.replicate d.vocab_size (0 : ℚ)).set j 1] := by
      rw [one_hot_sequence, one_hot, if_pos hjlt, one_hot_sequence]
    obtain ⟨rest, hrest, hrl, hrm⟩ :=
      ih (i + 1) ((List.replicate d.vocab_size (0 : ℚ)).set j 1)
        (m.forward inpt hidden).2
    refine ⟨d.chars.get ⟨_, htop⟩ :: rest, ?_, by simp [hrl], ?_⟩
    · rw [sampleLoop]
      simp only [hchar, henc, hoh, List.head?, hrest]
    · intro c hc
      rcases List.mem_cons.mp hc with rfl | hc
      · exact hmem
      · exact hrm c hc

/-- The generate call never fails on a non-empty all-vocabulary seed
when the model's output size matches the vocabulary size: it returns
exactly N characters, all from the vocabulary. -/
theorem generate_ok (m : GRU) (d : TweetDataset) (seed : List Char)
    (N : Nat) (rng : Nat → ℚ) (hm : m.OutputSized)
    (ho : m.output_size = d.vocab_size) (hv : d.vocab_size = d.chars.length)
    (hne : seed ≠ []) (hall : ∀ c ∈ seed, c ∈ d.chars) :
    ∃ res, generate m d seed N rng = .ok res ∧ res.length = N ∧
      ∀ c ∈ res, c ∈ d.chars := by
  obtain ⟨e, he, helen, hebound, _⟩ := encode_sequence_spec d seed hall
  have hbound2 : ∀ j ∈ e, j < d.vocab_size := by
    intro j hj
    rw [hv]
    exact hebound j hj
  obtain ⟨os, hos, hoslen⟩ := one_hot_sequence_some e d.vocab_size hbound2
  have hosne : os ≠ [] := by
    intro h0
    rw [h0] at hoslen
    cases seed with
    | nil => exact hne rfl
    | cons c cs =>
      rw [helen] at hoslen
      simp at hoslen
  obtain ⟨last, hlast⟩ : ∃ a, os.getLast? = some a := by
    cases os with
    | nil => exact absurd rfl hosne
    | cons o os2 => exact ⟨_, List.getLast?_eq_getLast _ (by simp)⟩
  have hpos : 0 < d.vocab_size := by
    cases seed with
    | nil => exact absurd rfl hne
    | cons c cs =>
      have hc : c ∈ d.chars := hall c (List.mem_cons_self _ _)
      rw [hv]
      exact List.length_pos.mpr (List.ne_nil_of_mem hc)
  obtain ⟨res, hres, hlen, hmem⟩ :=
    sampleLoop_ok m d rng hm ho hv hpos N 0 last
      (os.foldl (fun h s => (m.forward s h).2) (m.init_hidden 1))
  refine ⟨res, ?_, hlen, hmem⟩
  rw [generate]
  simp only [he, hos, hlast]
  exact hres

/-- The spec's priming recursion is the fold generate performs over
the seed's one-hot vectors. -/
theorem specPrime_eq_foldl (m : GRU) (xs : List (List ℚ))
    (h : List (List ℚ)) :
    specPrime m xs h = xs.foldl (fun hh x => (m.forward x hh).2) h := by
  induction xs generalizing h with
  | nil => rfl
  | cons x xs ih => rw [specPrime, List.foldl_cons, ih]

/-- The source's sampling loop, which re-encodes the sampled character
through _encode_sequence and _one_hot_sequence and then takes element
zero, agrees step by step with the spec-side loop that re-encodes
directly as the one-hot of the character's vocabulary index. -/
theorem sampleLoop_eq_specSample (m : GRU) (d : TweetDataset)
    (rng : Nat → ℚ) :
    ∀ n i inpt hidden, sampleLoop m d rng n i inpt hidden =
      specSample m d rng n i inpt hidden := by
  intro n
  induction n with
  | zero => intro i inpt hidden; rfl
  | succ n ih =>
    intro i inpt hidden
    rw [sampleLoop, specSample]
    cases hc : d.int2char (multinomial (softmax (m.forward inpt hidden).1)
        (rng i)) with
    | none => rfl
    | some char =>
      cases hj : d.char2int char with
      | none =>
        have henc : d.encode_sequence [char] = none := by
          rw [TweetDataset.encode_sequence, hj]
        simp only [henc, hj]
      | some j =>
        have henc : d.encode_sequence [char] = some [j] := by
          rw [TweetDataset.encode_sequence, hj, TweetDataset.encode_sequence]
        by_cases hlt : j < d.vocab_size
        · have hoh : one_hot_sequence [j] d.vocab_size =
              some [(List.replicate d.vocab_size (0 : ℚ)).set j 1] := by
            rw [one_hot_sequence, one_hot, if_pos hlt, one_hot_sequence]
          simp only [henc, hj, hoh, List.head?, if_pos hlt, ih]
        · have hoh : one_hot_sequence [j] d.vocab_size = none := by
            rw [one_hot_sequence, one_hot, if_neg hlt]
          simp only [henc, hj, hoh, if_neg hlt]

/-- Dropping the head of an initial segment is the initial segment of
the tail, one element shorter. -/
theorem take_one_drop_shift {α : Type} (s : List α) (L : Nat) :
    (s.take L).drop 1 = (s.drop 1).take (L - 1) := by
  cases L with
  | zero => simp
  | succ k =>
    show (s.take (k + 1)).drop 1 = (s.drop 1).take k
    rw [List.take_drop 1 k s, Nat.add_comm 1 k]

/-! ### Claim theorems -/

/-- C1: for every sample and window length L, every pair the Sequence
Windower emits comes from one padded slice of the walk (the
non-overlapping stride-(L+1) walk over the sample, with space
right-padding of a short final slice): the slice has length exactly
L+1, the input is slice[0..L), the target is slice[1..L+1), hence both
have length L and the target is the input shifted by one position
within the slice.  The assert of _create_sequences always passes, so
these pairs are exactly what the dataset constructor stores. -/
theorem windower_window_shape (L : Nat) (tweet : List Char)
    (p : List Char × List Char) (hp : p ∈ seq_pairs L [tweet]) :
    create_sequences L [tweet] = .ok (seq_pairs L [tweet]) ∧
      p.1.length = L ∧ p.2.length = L ∧
      ∃ s ∈ chunk_pad L tweet, s.length = L + 1 ∧
        p.1 = s.take L ∧ p.2 = s.drop 1 ∧
        p.1.drop 1 = p.2.take (L - 1) := by
  refine ⟨create_sequences_ok L [tweet], ?_⟩
  obtain ⟨s, hs, hps⟩ := mem_seq_pairs L [tweet] p hp
  have hsc : s ∈ chunk_pad L tweet := by
    simpa [all_chunks] using hs
  have hslen : s.length = L + 1 := mem_chunk_pad_length L tweet s hsc
  have hp1 : p.1 = s.take L := by
    rw [hps]
    simp [List.dropLast_eq_take, hslen]
  have hp2 : p.2 = s.drop 1 := by rw [hps]
  refine ⟨?_, ?_, s, hsc, hslen, hp1, hp2, ?_⟩
  · rw [hp1, List.length_take, hslen]
    omega
  · rw [hp2, List.length_drop, hslen]
    omega
  · rw [hp1, hp2]
    exact take_one_drop_shift s L

/-- Concrete run of windower_window_shape on the spec's end-to-end
example: sample "hello" with L = 4 produces the pair
(input "hell", target "ello") from the exact slice "hello". -/
theorem windower_window_shape_witness :
    create_sequences 4 [[ 'h', 'e', 'l', 'l', 'o']] =
        .ok (seq_pairs 4 [[ 'h', 'e', 'l', 'l', 'o']]) ∧
      ([ 'h', 'e', 'l', 'l'] : List Char).length = 4 ∧
      ([ 'e', 'l', 'l', 'o'] : List Char).length = 4 ∧
      ∃ s ∈ chunk_pad 4 [ 'h', 'e', 'l', 'l', 'o'], s.length = 4 + 1 ∧
        [ 'h', 'e', 'l', 'l'] = s.take 4 ∧ [ 'e', 'l', 'l', 'o'] = s.drop 1 ∧
        ([ 'h', 'e', 'l', 'l'] : List Char).drop 1 =
          ([ 'e', 'l', 'l', 'o'] : List Char).take (4 - 1) :=
  windower_window_shape 4 [ 'h', 'e', 'l', 'l', 'o']
    ([ 'h', 'e', 'l', 'l'], [ 'e', 'l', 'l', 'o']) (by decide)

/-- C2 counterexample: the empty seed is composed only of vocabulary
characters (vacuously), yet generate with it raises IndexError at
start[-1] instead of returning the empty string for N = 0. -/
theorem generate_empty_seed_counterexample :
    generate mAB dAB [] 0 rngZero = .error .indexError := rfl

/-- C2 (amended): for every model whose projection is sized to the
dataset's vocabulary, every NON-EMPTY seed of vocabulary characters
and every N, generate succeeds and returns exactly N sampled
characters (the seed is not part of the result); in particular N = 0
yields the empty string, with priming still performed. -/
theorem generate_returns_requested_length (m : GRU) (d : TweetDataset)
    (seed : List Char) (N : Nat) (rng : Nat → ℚ) (hm : m.OutputSized)
    (ho : m.output_size = d.vocab_size) (hv : d.vocab_size = d.chars.length)
    (hne : seed ≠ []) (hall : ∀ c ∈ seed, c ∈ d.chars) :
    ∃ res, generate m d seed N rng = .ok res ∧ res.length = N ∧
      (N = 0 → res = []) := by
  obtain ⟨res, h1, h2, _⟩ := generate_ok m d seed N rng hm ho hv hne hall
  exact ⟨res, h1, h2, fun h0 => List.length_eq_zero.mp (h0 ▸ h2)⟩

/-- Concrete run of generate_returns_requested_length: a length-0
request on a valid one-character seed returns the empty string. -/
theorem generate_returns_requested_length_witness :
    generate mAB dAB [ 'a'] 0 rngZero = .ok [] := by
  obtain ⟨res, h1, _, h3⟩ := generate_returns_requested_length mAB dAB
    [ 'a'] 0 rngZero (by decide) rfl rfl (by decide) (by decide)
  rw [h3 rfl] at h1
  exact h1

/-- C3: generate primes the hidden state by feeding the one-hot of
every seed character through the model one step at a time (per the
spec's priming recursion, logits discarded), then samples N characters
by the spec's sampling recursion, starting from the last seed
character's one-hot as the current input: each iteration runs one
model step, softmaxes the logits, samples one index from that
distribution, appends the decoded character and re-encodes it as the
next input. -/
theorem generate_primes_then_samples (m : GRU) (d : TweetDataset)
    (seed : List Char) (N : Nat) (rng : Nat → ℚ) (enc : List Nat)
    (ohs : List (List ℚ)) (lastOH : List ℚ)
    (henc : d.encode_sequence seed = some enc)
    (hoh : one_hot_sequence enc d.vocab_size = some ohs)
    (hlast : ohs.getLast? = some lastOH) :
    generate m d seed N rng =
      specSample m d rng N 0 lastOH (specPrime m ohs (m.init_hidden 1)) := by
  rw [generate]
  simp only [henc, hoh, hlast]
  rw [specPrime_eq_foldl]
  exact sampleLoop_eq_specSample m d rng N 0 lastOH _

/-- Concrete run of generate_primes_then_samples on the seed "a"
(one-hot [1, 0]) with one sampled character. -/
theorem generate_primes_then_samples_witness :
    generate mAB dAB [ 'a'] 1 rngZero =
      specSample mAB dAB rngZero 1 0 [1, 0]
        (specPrime mAB [[1, 0]] (mAB.init_hidden 1)) :=
  generate_primes_then_samples mAB dAB [ 'a'] 1 rngZero [0] [[1, 0]]
    [1, 0] rfl rfl rfl

/-- C4 (code bug evidence): one epoch whose four batches each have
loss 1 is reported as 4/32 = 1/8, while the average loss over the 4
batches processed is 1: train divides the accumulated loss by the
constant BATCH_SIZE, not by the number of batches. -/
theorem train_reports_loss_over_batch_size :
    train_epoch_report [1, 1, 1, 1] = .ok (1 / 8) ∧
      ((1 : ℚ) / 8) ≠ ((1 : ℚ) + 1 + 1 + 1) / 4 := by
  constructor
  · norm_num [train_epoch_report, BATCH_SIZE]
  · norm_num

/-- C5 counterexample: the empty sample (shorter than L+1 = 5) yields
zero window pairs, not exactly one: the Python range over an empty
tweet is empty, so no padded window is ever produced for it. -/
theorem windower_empty_sample_counterexample :
    seq_pairs 4 [([] : List Char)] = [] ∧
      (seq_pairs 4 [([] : List Char)]).length ≠ 1 := by
  exact ⟨ rfl, by decide⟩

/-- C5 (amended): every NON-EMPTY sample shorter than L+1 characters
yields exactly one window pair, obtained by right-padding the sample
with spaces to length L+1 and splitting it; the empty sample yields no
window at all. -/
theorem windower_short_sample_single_window (L : Nat) (t : List Char)
    (hne : t ≠ []) (hlt : t.length < L + 1) :
    seq_pairs L [t] =
      [((t ++ List.replicate (L + 1 - t.length) ' ').dropLast,
        (t ++ List.replicate (L + 1 - t.length) ' ').drop 1)] := by
  cases t with
  | nil => exact absurd rfl hne
  | cons c t2 =>
    have htake : (c :: t2).take (L + 1) = c :: t2 :=
      List.take_of_length_le (le_of_lt hlt)
    have hdrop : (c :: t2).drop (L + 1) = [] :=
      List.drop_eq_nil_of_le (le_of_lt hlt)
    have hchunk : chunk_pad L (c :: t2) =
        [(c :: t2) ++ List.replicate (L + 1 - (c :: t2).length) ' '] := by
      rw [chunk_pad_cons, htake, hdrop]
      rw [pad_seq, if_pos hlt]
      rfl
    rw [seq_pairs]
    simp only [all_chunks, hchunk, List.append_nil, List.map_cons,
      List.map_nil, List.zip_cons_cons, List.zip_nil_right]

/-- Concrete run of windower_short_sample_single_window: "ab" with
L = 4 is padded to "ab   " and split into ("ab  ", "b   "). -/
theorem windower_short_sample_single_window_witness :
    seq_pairs 4 [[ 'a', 'b']] =
      [(([ 'a', 'b'] ++
          List.replicate (4 + 1 - List.length [ 'a', 'b']) ' ').dropLast,
        ([ 'a', 'b'] ++
          List.replicate (4 + 1 - List.length [ 'a', 'b']) ' ').drop 1)] :=
  windower_short_sample_single_window 4 [ 'a', 'b'] (by decide) (by decide)

/-- C6: the Vocabulary Builder returns the sorted duplicate-free list
of exactly the characters occurring in the corpus; int2char and
char2int are mutually inverse between positions 0..vocab_size-1 and
those characters (a bijection in sorted character order), and
re-running the builder on the same corpus yields the identical
mapping. -/
theorem vocab_bijection (corpus : Corpus) :
    (get_unique_chars corpus).Nodup ∧
      List.Sorted (· ≤ ·) (get_unique_chars corpus) ∧
      (∀ c, c ∈ get_unique_chars corpus ↔ ∃ t ∈ corpus, c ∈ t) ∧
      (∀ i, ∀ h : i < (get_unique_chars corpus).length,
        lookup_idx ((get_unique_chars corpus).get ⟨i, h⟩)
          (get_unique_chars corpus) = some i) ∧
      (∀ c ∈ get_unique_chars corpus, ∃ i,
        lookup_idx c (get_unique_chars corpus) = some i ∧
          (get_unique_chars corpus).get? i = some c) ∧
      get_unique_chars corpus = get_unique_chars corpus := by
  refine ⟨get_unique_chars_nodup corpus, get_unique_chars_sorted corpus,
    mem_get_unique_chars corpus, ?_, ?_, rfl⟩
  · exact fun i h => lookup_idx_get _ (get_unique_chars_nodup corpus) i h
  · exact fun c hc => lookup_idx_of_mem c _ hc

/-- Concrete run of vocab_bijection on the corpus ["bab"]. -/
theorem vocab_bijection_witness :
    (get_unique_chars [[ 'b', 'a', 'b']]).Nodup ∧
      List.Sorted (· ≤ ·) (get_unique_chars [[ 'b', 'a', 'b']]) :=
  ⟨(vocab_bijection [[ 'b', 'a', 'b']]).1,
    (vocab_bijection [[ 'b', 'a', 'b']]).2.1⟩

/-- C7: decoding the encoding of any string of vocabulary characters
returns the string unchanged. -/
theorem encode_decode_roundtrip (d : TweetDataset) (s : List Char)
    (h : ∀ c ∈ s, c ∈ d.chars) :
    (d.encode_sequence s).bind d.decode_sequence = some s := by
  obtain ⟨e, he, _, _, hdec⟩ := encode_sequence_spec d s h
  rw [he]
  exact hdec

/-- Concrete run of encode_decode_roundtrip on "ba" over the chars
of dAB. -/
theorem encode_decode_roundtrip_witness :
    (dAB.encode_sequence [ 'b', 'a']).bind dAB.decode_sequence =
      some [ 'b', 'a'] :=
  encode_decode_roundtrip dAB [ 'b', 'a'] (by decide)

/-- C8: encoding any sequence holding a character outside the
vocabulary fails with the UnknownCharacter condition (the KeyError of
char2int) rather than silently substituting, and generate with such a
seed fails with that same condition for every model, every requested
length and every randomness source: the failure happens while
formatting the seed, before any sampling occurs. -/
theorem unknown_char_fails (d : TweetDataset) (seed : List Char)
    (h : ∃ c ∈ seed, c ∉ d.chars) :
    d.encode_sequence seed = none ∧
      ∀ (m : GRU) (N : Nat) (rng : Nat → ℚ),
        generate m d seed N rng = .error .unknownChar := by
  obtain ⟨c, hc, hnot⟩ := h
  have he := encode_sequence_none d seed c hc hnot
  refine ⟨he, fun m N rng => ?_⟩
  rw [generate, he]

/-- Concrete run of unknown_char_fails: the seed "z" is outside the
vocabulary of dAB. -/
theorem unknown_char_fails_witness :
    dAB.encode_sequence [ 'z'] = none ∧
      generate mAB dAB [ 'z'] 3 rngZero = .error .unknownChar := by
  have h := unknown_char_fails dAB [ 'z'] (by decide)
  exact ⟨h.1, h.2 mAB 3 rngZero⟩

/-- C9 counterexample: constructing the dataset from the empty corpus
(hence with an empty vocabulary) is not rejected: the constructor
succeeds with vocab_size = 0, so no fatal error is reported before
training starts. -/
theorem empty_corpus_not_rejected :
    datasetInit ([] : Corpus) 32 =
      .ok { seq_len := 32, chars := [], vocab_size := 0,
            sequences := [] } := rfl

/-- C9 (amended): there is no empty-vocabulary detection: for every
seq_len, the dataset constructor on the empty corpus succeeds with an
empty vocabulary and no sequences, and the degenerate state only
surfaces downstream, when the first training epoch's loss report fails
(the AttributeError of loss_avg.item() on the int 0 after zero
batches). -/
theorem empty_corpus_degenerate_state (L : Nat) :
    datasetInit ([] : Corpus) L =
      .ok { seq_len := L, chars := [], vocab_size := 0, sequences := [] } ∧
      train_epoch_report [] = .error .attributeError :=
  ⟨ rfl, rfl⟩

/-- C10: when the model's output size equals the dataset's vocabulary
size, generate on a valid (non-empty, all-vocabulary) seed never hits
a failing lookup: every sampled index is a valid vocabulary position,
so its int2char decoding and its re-encoding both succeed and every
character of the returned string belongs to the vocabulary. -/
theorem generate_sampled_chars_in_vocab (m : GRU) (d : TweetDataset)
    (seed : List Char) (N : Nat) (rng : Nat → ℚ) (hm : m.OutputSized)
    (ho : m.output_size = d.vocab_size) (hv : d.vocab_size = d.chars.length)
    (hne : seed ≠ []) (hall : ∀ c ∈ seed, c ∈ d.chars) :
    ∃ res, generate m d seed N rng = .ok res ∧ ∀ c ∈ res, c ∈ d.chars := by
  obtain ⟨res, h1, _, h3⟩ := generate_ok m d seed N rng hm ho hv hne hall
  exact ⟨res, h1, h3⟩

/-- Concrete run of generate_sampled_chars_in_vocab: two characters
sampled from the valid seed "a" without any failing lookup. -/
theorem generate_sampled_chars_in_vocab_witness :
    (generate mAB dAB [ 'a'] 2 rngZero).toBool = true := by
  obtain ⟨res, h1, _⟩ := generate_sampled_chars_in_vocab mAB dAB [ 'a'] 2
    rngZero (by decide) rfl rfl (by decide) (by decide)
  rw [h1]
  rfl
